import Mathlib

/-!
Verification of the JSON tree-visualizer core (tree builder, layout
flattener, path matcher) against its specification.

The development shallowly embeds the three core functions of the
repository:

* `jsonToTree`  (src/utils/jsonToTree.ts, `jsonToTree`)
* `treeToFlow`  (src/utils/jsonToTree.ts, `treeToFlow`)
* `searchNodes`, `isValidJsonPath` (src/utils/searchUtils.ts)

JavaScript strings are embedded as `String`, JavaScript numbers (which
are only ever integers in this code) as `Int`, array indices as `Nat`.
JavaScript string primitives that the code relies on (`trim`,
`startsWith`, `includes`, `split`, one-occurrence `replace`, decimal
rendering of an index by template interpolation) are embedded as
structurally recursive Lean functions on `List Char` so that every
definition evaluates by kernel reduction.
-/

/-! ### JavaScript string primitives used by the source -/

/-- The character class `[.\[\]]` of the level computation in
`treeToFlow`, and the delimiter set of the path grammar. -/
def isDelim (c : Char) : Bool :=
  c == '.' || c == '[' || c == ']'

/-- JavaScript `String.prototype.trim` (on the whitespace the inputs
here ever contain): drop leading and trailing whitespace. -/
def jsTrim (s : String) : String :=
  ⟨((s.data.dropWhile Char.isWhitespace).reverse.dropWhile Char.isWhitespace).reverse⟩

/-- JavaScript `String.prototype.startsWith` with a literal prefix. -/
def startsWithStr (s pre : String) : Bool :=
  pre.data.isPrefixOf s.data

/-- JavaScript `String.prototype.includes`: substring containment. -/
def strIncludes (s sub : String) : Bool :=
  decide (sub.data <:+: s.data)

/-- JavaScript `String.prototype.replace(pat, '')` with a string
pattern: remove the first occurrence of `pat`, if any. -/
def replaceFirstData (l pat : List Char) : List Char :=
  match l with
  | [] => []
  | c :: rest => if pat.isPrefixOf (c :: rest) then (c :: rest).drop pat.length
                 else c :: replaceFirstData rest pat

/-- `s.replace(pat, '')` on strings. -/
def replaceFirst (s pat : String) : String :=
  ⟨replaceFirstData s.data pat.data⟩

/-- JavaScript `String.prototype.split` at every character satisfying
`p` (the splitting characters are dropped; empty segments are kept,
as with `"a..b".split('.') = ["a","","b"]`). -/
def splitOnP (p : Char → Bool) : List Char → List (List Char)
  | [] => [[]]
  | c :: cs =>
    match splitOnP p cs with
    | [] => [[]]
    | seg :: segs => if p c then [] :: seg :: segs else (c :: seg) :: segs

/-- Decimal digits of `n`, most significant first, by the standard
division loop (the loop is driven by structural fuel; `n + 1` steps
always suffice).  This is the decimal rendering that JavaScript
template interpolation `${index}` performs on a non-negative integer. -/
def natToStringAux : Nat → Nat → List Char
  | 0, _ => []
  | fuel + 1, n =>
    if n < 10 then [Nat.digitChar n]
    else natToStringAux fuel (n / 10) ++ [Nat.digitChar (n % 10)]

/-- JavaScript `${n}` for a non-negative integer `n`. -/
def natToString (n : Nat) : String :=
  ⟨natToStringAux (n + 1) n⟩

/-- JavaScript `String(x)` for an integral number `x`. -/
def intToString (i : Int) : String :=
  if i < 0 then "-" ++ natToString i.natAbs else natToString i.natAbs

/-! ### The data model (src/utils/jsonToTree.ts) -/

/-- A decoded JSON value, as the tree builder receives it.  The extra
`undef` constructor stands for the JavaScript value `undefined`, which
the source explicitly handles alongside `null`.  Object fields keep
their insertion order. -/
inductive Json where
  | null
  | undef
  | bool (b : Bool)
  | num (n : Int)
  | str (s : String)
  | arr (items : List Json)
  | obj (fields : List (String × Json))

/-- `JsonNodeType` of jsonToTree.ts. -/
inductive JsonNodeType where
  | object
  | array
  | primitive
deriving DecidableEq

/-- `TreeNode` of jsonToTree.ts (an inductive rather than a structure
because the `children` field is recursive). -/
inductive TreeNode where
  | mk (id path label : String) (value : Json) (type : JsonNodeType)
       (children : List TreeNode)

def TreeNode.id : TreeNode → String
  | .mk i _ _ _ _ _ => i

def TreeNode.path : TreeNode → String
  | .mk _ p _ _ _ _ => p

def TreeNode.label : TreeNode → String
  | .mk _ _ l _ _ _ => l

def TreeNode.value : TreeNode → Json
  | .mk _ _ _ v _ _ => v

def TreeNode.type : TreeNode → JsonNodeType
  | .mk _ _ _ _ t _ => t

def TreeNode.children : TreeNode → List TreeNode
  | .mk _ _ _ _ _ cs => cs

/-! ### The tree builder `jsonToTree` -/

/-- `parentPath.split('.').pop() || parentPath` — the last
dot-separated segment of the path, or the whole path if that segment
is empty. -/
def lastSegment (p : String) : String :=
  match (splitOnP (fun c => c == '.') p.data).getLast? with
  | some seg => if seg = [] then p else ⟨seg⟩
  | none => p

/-- `String(data)` as used in the primitive branch of `jsonToTree`
(only ever applied to booleans, numbers and strings there, since the
null/undefined and object/array branches are dispatched first). -/
def jsPrimString : Json → String
  | .bool true => "true"
  | .bool false => "false"
  | .num n => intToString n
  | .str s => s
  | _ => ""

mutual

/-- `jsonToTree` of jsonToTree.ts: recursively convert a decoded JSON
value into a (singleton list holding a) `TreeNode`, threading the
path built so far. -/
def jsonToTree (data : Json) (parentPath : String) : List TreeNode :=
  match data with
  | .null | .undef =>
    [.mk parentPath parentPath
        ((if parentPath = "$" then "root" else lastSegment parentPath) ++ ": null")
        .null .primitive []]
  | .bool b =>
    [.mk parentPath parentPath
        (if parentPath = "$" then "root: " ++ jsPrimString (.bool b)
         else lastSegment parentPath ++ ": " ++ jsPrimString (.bool b))
        (.bool b) .primitive []]
  | .num n =>
    [.mk parentPath parentPath
        (if parentPath = "$" then "root: " ++ jsPrimString (.num n)
         else lastSegment parentPath ++ ": " ++ jsPrimString (.num n))
        (.num n) .primitive []]
  | .str s =>
    [.mk parentPath parentPath
        (if parentPath = "$" then "root: " ++ jsPrimString (.str s)
         else lastSegment parentPath ++ ": " ++ jsPrimString (.str s))
        (.str s) .primitive []]
  | .arr items =>
    [.mk parentPath parentPath
        (if parentPath = "$" then "root: [Array]"
         else lastSegment parentPath ++ ": [Array(" ++ natToString items.length ++ ")]")
        (.arr items) .array (jsonToTreeArr items parentPath 0)]
  | .obj fields =>
    [.mk parentPath parentPath
        (if parentPath = "$" then "root: \x7bObject\x7d"
         else lastSegment parentPath ++ ": \x7bObject\x7d")
        (.obj fields) .object (jsonToTreeObj fields parentPath)]

/-- The `data.forEach((item, index) => ...)` loop of the array branch:
children of an array node, accumulating all nodes each recursive call
returns, with paths `parentPath[index]`. -/
def jsonToTreeArr (items : List Json) (parentPath : String) (index : Nat) :
    List TreeNode :=
  match items with
  | [] => []
  | item :: rest =>
    jsonToTree item (parentPath ++ "[" ++ natToString index ++ "]")
      ++ jsonToTreeArr rest parentPath (index + 1)

/-- The `Object.keys(data).forEach(...)` loop of the object branch:
children of an object node, with paths `$.key` at the root and
`parentPath.key` elsewhere. -/
def jsonToTreeObj (fields : List (String × Json)) (parentPath : String) :
    List TreeNode :=
  match fields with
  | [] => []
  | (key, val) :: rest =>
    jsonToTree val
        (if parentPath = "$" then "$." ++ key else parentPath ++ "." ++ key)
      ++ jsonToTreeObj rest parentPath

end

/-! ### The layout flattener `treeToFlow` -/

/-- The `position: \x7bx, y\x7d` coordinate of a React Flow node. -/
structure Position where
  x : Int
  y : Int
deriving DecidableEq

/-- The `data` payload `treeToFlow` stores on each flow node. -/
structure FlowData where
  label : String
  path : String
  value : Json
  nodeType : JsonNodeType

/-- A React Flow `Node` as `treeToFlow` produces it (the constant
`type: 'jsonNode'` field and the constant `style` object are omitted:
they carry no per-node information). -/
structure FlowNode where
  id : String
  position : Position
  data : FlowData

/-- A React Flow `Edge` as `treeToFlow` produces it (the constant
`type`, `animated` and `style` fields are omitted). -/
structure Edge where
  id : String
  source : String
  target : String
deriving DecidableEq

/-- `treeNode.path.split(/[\.\[\]]/).length - 1`: the depth level the
flattener derives from a path string. -/
def pathLevel (p : String) : Nat :=
  (splitOnP isDelim p.data).length - 1

/-- A `QueueItem` of the flattener's work queue.  The source enqueues
the whole parent flow node but only ever reads its `id`, so only the
id is carried here. -/
structure QueueItem where
  treeNode : TreeNode
  parentId : Option String
  x : Int
  y : Int

mutual

/-- Number of nodes of a tree (the number of loop iterations the
flattener spends on it). -/
def sizeT : TreeNode → Nat
  | .mk _ _ _ _ _ cs => 1 + sizeTs cs

/-- Number of nodes of a forest. -/
def sizeTs : List TreeNode → Nat
  | [] => 0
  | t :: ts => sizeT t + sizeTs ts

end

/-- One `levelYPositions[level + 1] = childY + 280` store:
`Record<number, number>` assignment on an association list. -/
def setLevelY (lvlY : List (Nat × Int)) (k : Nat) (v : Int) : List (Nat × Int) :=
  match lvlY with
  | [] => [(k, v)]
  | (k', v') :: rest => if k' = k then (k, v) :: rest else (k', v') :: setLevelY rest k v

/-- The flow node materialized for a dequeued item: the tree node's
id and data at the item's assigned `(x, y)` position. -/
def mkFlowNode (item : QueueItem) : FlowNode :=
  { id := item.treeNode.id
    position := { x := item.x, y := item.y }
    data := { label := item.treeNode.label, path := item.treeNode.path
              value := item.treeNode.value, nodeType := item.treeNode.type } }

/-- The `if (parentNode) edges.push(...)` step: one edge from the
parent to the dequeued node when a parent exists, none at the root. -/
def parentEdges (item : QueueItem) : List Edge :=
  match item.parentId with
  | some pid => [{ id := pid ++ "-" ++ item.treeNode.id, source := pid
                   target := item.treeNode.id }]
  | none => []

/-- `levelYPositions[level + 1] || y + 320`: the stored y for the
children's depth level if present (a stored `0` is falsy in
JavaScript and also falls back), else the parent's y plus the fixed
vertical gap. -/
def nextChildY (lvlY : List (Nat × Int)) (level : Nat) (y : Int) : Int :=
  match lvlY.lookup (level + 1) with
  | some v => if v = 0 then y + 320 else v
  | none => y + 320

/-- The `treeNode.children.forEach(...)` enqueue step: children
spread horizontally around the parent's x
(`spacing = max(360, childCount * 320)`,
`startChildX = x - spacing / 2 + 160`, stepping by 320), all at the
single y-coordinate `childY`, all recorded with this node as parent. -/
def childQueueItems (tn : TreeNode) (x childY : Int) : List QueueItem :=
  let spacing : Int := max 360 (tn.children.length * 320)
  let startChildX : Int := x - spacing / 2 + 160
  tn.children.enum.map fun p =>
    { treeNode := p.2, parentId := some tn.id
      x := startChildX + (p.1 : Int) * 320, y := childY }

/-- The `while (queue.length > 0)` loop of `treeToFlow`.  The loop
runs exactly once per tree node, so the structural `fuel` counter —
seeded by `treeToFlow` with the size of the tree — never reaches zero
before the queue empties.  Output nodes and edges appear in exactly
the push order of the source. -/
def treeToFlowAux (fuel : Nat) (queue : List QueueItem)
    (lvlY : List (Nat × Int)) : List FlowNode × List Edge :=
  match fuel, queue with
  | _, [] => ([], [])
  | 0, _ => ([], [])
  | fuel + 1, item :: rest =>
    let tn := item.treeNode
    let level := pathLevel tn.path
    if tn.children.length > 0 then
      let childY := nextChildY lvlY level item.y
      let rec' := treeToFlowAux fuel (rest ++ childQueueItems tn item.x childY)
        (setLevelY lvlY (level + 1) (childY + 280))
      (mkFlowNode item :: rec'.1, parentEdges item ++ rec'.2)
    else
      let rec' := treeToFlowAux fuel rest lvlY
      (mkFlowNode item :: rec'.1, parentEdges item ++ rec'.2)

/-- `treeToFlow` of jsonToTree.ts: breadth-first flattening of the
tree rooted at `treeNodes[0]` into positioned nodes and edges,
seeded with origin `(startX, startY)`; the source declares the
defaults `startX = 400`, `startY = 50`, passed explicitly here. -/
def treeToFlow (treeNodes : List TreeNode) (startX : Int)
    (startY : Int) : List FlowNode × List Edge :=
  match treeNodes with
  | [] => ([], [])
  | root :: _ =>
    treeToFlowAux (sizeT root)
      [{ treeNode := root, parentId := none, x := startX, y := startY }]
      [(0, startY)]

/-! ### The path matcher (src/utils/searchUtils.ts) -/

/-- `searchNodes` of searchUtils.ts: collect, in input order, the ids
of the nodes whose path matches the (trimmed, `$.`-prefixed) query,
by the exact-match branch or the containment fallback branch. -/
def searchNodes (nodes : List FlowNode) (searchPath : String) : List String :=
  if jsTrim searchPath = "" then []
  else
    let normalizedSearch := jsTrim searchPath
    let searchPattern :=
      if startsWithStr normalizedSearch "$" then normalizedSearch
      else "$." ++ normalizedSearch
    nodes.foldl
      (fun matchingNodeIds node =>
        let nodePath := node.data.path
        if nodePath = searchPattern then matchingNodeIds ++ [node.id]
        else if strIncludes nodePath (replaceFirst searchPattern "$.")
                || nodePath = searchPattern
                || strIncludes searchPattern nodePath then
          matchingNodeIds ++ [node.id]
        else matchingNodeIds)
      []

theorem length_dropWhile_le (p : Char → Bool) (l : List Char) :
    (l.dropWhile p).length ≤ l.length := by
  induction l with
  | nil => simp
  | cons c cs ih =>
    by_cases h : p c
    · simpa [List.dropWhile, h] using Nat.le_succ_of_le ih
    · simp [List.dropWhile, h]

/-- One segment-matching step of the regular expression
`^(\$?)(\.[a-zA-Z_][a-zA-Z0-9_]*|\[[0-9]+\])*$` of `isValidJsonPath`:
after the optional `$`, the rest of the input must be a sequence of
`.identifier` or `[digits]` groups reaching the end of the string. -/
def pathSegsMatch : List Char → Bool
  | [] => true
  | '.' :: c :: cs =>
    if c.isAlpha || c == '_' then pathSegsMatch (cs.dropWhile fun d => d.isAlpha || d.isDigit || d == '_')
    else false
  | '[' :: cs =>
    match cs.takeWhile Char.isDigit with
    | [] => false
    | _ :: _ =>
      match h : cs.dropWhile Char.isDigit with
      | ']' :: rest => pathSegsMatch rest
      | _ => false
  | _ => false
termination_by cs => cs.length
decreasing_by
  · have := length_dropWhile_le (fun d => d.isAlpha || d.isDigit || d == '_') cs
    simp only [List.length_cons]
    omega
  · have h2 := length_dropWhile_le Char.isDigit cs
    rw [h] at h2
    simp only [List.length_cons] at *
    omega

/-- `pathPattern.test(path)` for the anchored regular expression
above: optionally consume a leading `$`, then match segments. -/
def pathPatternTest (s : String) : Bool :=
  match s.data with
  | '$' :: rest => pathSegsMatch rest
  | other => pathSegsMatch other

/-- `isValidJsonPath` of searchUtils.ts. -/
def isValidJsonPath (path : String) : Bool :=
  if jsTrim path = "" then false
  else pathPatternTest path || jsTrim path != ""

/-! ### Observers and helper predicates used by the theorems -/

/-- The y-coordinate of the first output node carrying a given id
(`Array.prototype.find` order). -/
def yOf (nodes : List FlowNode) (i : String) : Option Int :=
  (nodes.find? (fun n => n.id == i)).map (fun n => n.position.y)

mutual

/-- All node ids of a tree, root first, then children in order. -/
def treeIds : TreeNode → List String
  | .mk i _ _ _ _ cs => i :: treeIdsList cs

/-- All node ids of a forest. -/
def treeIdsList : List TreeNode → List String
  | [] => []
  | t :: ts => treeIds t ++ treeIdsList ts

end

mutual

/-- All node paths of a tree, root first, then children in order. -/
def treePaths : TreeNode → List String
  | .mk _ p _ _ _ cs => p :: treePathsList cs

/-- All node paths of a forest. -/
def treePathsList : List TreeNode → List String
  | [] => []
  | t :: ts => treePaths t ++ treePathsList ts

end

mutual

/-- Every node of the tree has `id = path`. -/
def idsEqPathsT : TreeNode → Bool
  | .mk i p _ _ _ cs => (i == p) && idsEqPathsL cs

/-- Every node of the forest has `id = path`. -/
def idsEqPathsL : List TreeNode → Bool
  | [] => true
  | t :: ts => idsEqPathsT t && idsEqPathsL ts

end

/-- An object key that contains none of the path-delimiter
characters `.`, `[`, `]`. -/
def cleanKey (k : String) : Bool :=
  k.data.all (fun c => !(isDelim c))

mutual

/-- Every object in the value has pairwise distinct keys, all free of
path-delimiter characters (the well-formedness condition under which
path uniqueness holds). -/
def cleanKeys : Json → Bool
  | .null | .undef | .bool _ | .num _ | .str _ => true
  | .arr items => cleanKeysArr items
  | .obj fields => cleanKeysObj fields

/-- `cleanKeys` on every element of an array. -/
def cleanKeysArr : List Json → Bool
  | [] => true
  | j :: js => cleanKeys j && cleanKeysArr js

/-- `cleanKeys` on an object's field list: the head key is clean and
does not reappear, and all values are recursively clean. -/
def cleanKeysObj : List (String × Json) → Bool
  | [] => true
  | (k, v) :: fs =>
    cleanKey k && fs.all (fun kv => kv.1 != k) && cleanKeys v && cleanKeysObj fs

end

mutual

/-- The path suffixes (relative to the parent path) of all nodes the
tree builder creates for a value: `jsonToTree j p` produces exactly
the paths `p ++ r` for `r ∈ relPaths j`. -/
def relPaths : Json → List String
  | .null | .undef | .bool _ | .num _ | .str _ => [""]
  | .arr items => "" :: relPathsArr items 0
  | .obj fields => "" :: relPathsObj fields

/-- Relative paths contributed by array elements, starting at `index`. -/
def relPathsArr : List Json → Nat → List String
  | [], _ => []
  | j :: js, index =>
    (relPaths j).map (fun r => "[" ++ natToString index ++ "]" ++ r)
      ++ relPathsArr js (index + 1)

/-- Relative paths contributed by object fields. -/
def relPathsObj : List (String × Json) → List String
  | [] => []
  | (k, v) :: fs =>
    (relPaths v).map (fun r => "." ++ k ++ r) ++ relPathsObj fs

end

/-- Total number of tree nodes sitting in the work queue (the number
of loop iterations the flattener still has to run). -/
def qSize (queue : List QueueItem) : Nat :=
  (queue.map (fun q => sizeT q.treeNode)).sum

/-- All tree-node ids sitting in the work queue. -/
def queueIds (queue : List QueueItem) : List String :=
  (queue.map (fun q => treeIds q.treeNode)).flatten

/-- The query normalization of `searchNodes`: trim, then prepend `$.`
unless the query already starts with `$`. -/
def normalizePattern (q : String) : String :=
  let t := jsTrim q
  if startsWithStr t "$" then t else "$." ++ t

/-- The per-node match test of `searchNodes` (exact-match branch or
containment fallback branch). -/
def nodeMatches (pat : String) (n : FlowNode) : Bool :=
  (decide (n.data.path = pat))
    || (strIncludes n.data.path (replaceFirst pat "$.")
        || decide (n.data.path = pat)
        || strIncludes pat n.data.path)

/-- Numeric value of a decimal digit character. -/
def digitVal (c : Char) : Nat := c.toNat - 48

/-- Decimal value of a digit string (inverse of `natToString`). -/
def decodeDigits (l : List Char) : Nat :=
  l.foldl (fun a c => a * 10 + digitVal c) 0

/-! ### Concrete inputs used by the claims -/

/-- The running example of the specification:
`\x7b"a":1,"b":[2,3]\x7d`. -/
def jAB : Json := .obj [("a", .num 1), ("b", .arr [.num 2, .num 3])]

/-- A value mixing a deep object chain with a deep array chain.  The
array steps advance the delimiter-derived depth level by two at a
time, so the array chain reaches and seeds level 6 before the object
chain's level-5 parent is processed. -/
def jCross : Json :=
  .obj [("p", .obj [("b", .obj [("c", .obj [("d", .obj [("e", .obj [("f", .num 1)])])])])]),
        ("q", .arr [.arr [.arr [.num 1]]])]

/-- A well-formed JSON value whose object keys contain the delimiter
`.`: the key `"a.b"` at the root and the key `"b"` under `"a"` both
produce the path `$.a.b`. -/
def jDotKey : Json := .obj [("a.b", .num 1), ("a", .obj [("b", .num 2)])]

/-- A sample positioned node (the flattened root of a null document). -/
def sampleNode : FlowNode :=
  { id := "$", position := { x := 400, y := 50 }
    data := { label := "root: null", path := "$", value := .null
              nodeType := .primitive } }

/-- The reference breadth-first (level-order) listing of a forest's
node ids, stated after the specification's traversal-order guarantee
and independent of the layout code: dequeue the first tree, emit its
root's id, enqueue its children at the back of the queue.  The
structural fuel plays the same role as in `treeToFlowAux`: one unit
per emitted node. -/
def bfsIdsAux : Nat → List TreeNode → List String
  | _, [] => []
  | 0, _ => []
  | fuel + 1, t :: rest => t.id :: bfsIdsAux fuel (rest ++ t.children)

/-- The breadth-first listing of the node ids of a forest. -/
def bfsIds (ts : List TreeNode) : List String :=
  bfsIdsAux (sizeTs ts) ts

/-! ### Basic facts about the string embedding -/

theorem jsTrim_eq_empty_iff (s : String) :
    jsTrim s = "" ↔ ∀ c ∈ s.data, c.isWhitespace = true := by
  unfold jsTrim
  constructor
  · intro h c hc
    have hdata : ((s.data.dropWhile Char.isWhitespace).reverse.dropWhile
        Char.isWhitespace).reverse = [] := congrArg String.data h
    rw [List.reverse_eq_nil_iff, List.dropWhile_eq_nil_iff] at hdata
    by_cases hmem : c ∈ s.data.takeWhile Char.isWhitespace
    · exact List.mem_takeWhile_imp hmem
    · have hdrop : c ∈ s.data.dropWhile Char.isWhitespace := by
        have hsplit := List.takeWhile_append_dropWhile Char.isWhitespace s.data
        have hc' : c ∈ s.data.takeWhile Char.isWhitespace
            ++ s.data.dropWhile Char.isWhitespace := by rw [hsplit]; exact hc
        rcases List.mem_append.mp hc' with h1 | h2
        · exact absurd h1 hmem
        · exact h2
      exact hdata c (List.mem_reverse.mpr hdrop)
  · intro h
    have h1 : s.data.dropWhile Char.isWhitespace = [] :=
      List.dropWhile_eq_nil_iff.mpr h
    simp [h1]

/-! ### Claim C1 -/

/-- Claim C1, as stated, is false: matching the query `"$.a"` over
the flattened `\x7b"a":1,"b":[2,3]\x7d` node list does not return the
one-element list `["$.a"]` — the containment fallback also admits the
root `"$"` (the query string `"$.a"` contains the root path `"$"`). -/
theorem C1_counterexample :
    searchNodes (treeToFlow (jsonToTree jAB "$") 400 50).1 "$.a" ≠ ["$.a"] := by
  decide

/-- Claim C1, amended: matching `"$.a"` over the flattened
`\x7b"a":1,"b":[2,3]\x7d` node list returns exactly `["$", "$.a"]`, in
traversal order — the exact match `"$.a"` plus the root, which the
fallback branch admits because the query contains the root's path. -/
theorem C1_amended_root_included :
    searchNodes (treeToFlow (jsonToTree jAB "$") 400 50).1 "$.a" = ["$", "$.a"] := by
  decide

/-! ### Claim C2, counterexample -/

/-- Claim C2, as stated, is false: in the flattened `jCross` document
the node `$.p.b.c.d.e` (y = 1890) has the child `$.p.b.c.d.e.f`, and
that child's y-coordinate is also 1890 — the children's shared
y-coordinate is *not* `max(stored level y, parent y + 320)` and lies
below the parent's y plus the fixed vertical gap.  (The array chain
`$.q[0][0]` seeded depth level 6 with a smaller y earlier, and the
stored value is used as-is.) -/
theorem C2_counterexample :
    ({ id := "$.p.b.c.d.e-$.p.b.c.d.e.f", source := "$.p.b.c.d.e"
       target := "$.p.b.c.d.e.f" } : Edge)
        ∈ (treeToFlow (jsonToTree jCross "$") 400 50).2
    ∧ yOf (treeToFlow (jsonToTree jCross "$") 400 50).1 "$.p.b.c.d.e" = some 1890
    ∧ yOf (treeToFlow (jsonToTree jCross "$") 400 50).1 "$.p.b.c.d.e.f" = some 1890
    ∧ ¬((1890 : Int) ≥ 1890 + 320) := by
  refine ⟨by decide, by decide, by decide, by decide⟩

/-! ### Claim C3, counterexample -/

/-- Claim C3, as stated, is false: path uniqueness does not hold for
every well-formed input once object keys may contain the delimiter
characters — in `jDotKey` (keys `"a.b"` and `"a"`, the latter holding
a field `"b"`) two distinct nodes both get the path `"$.a.b"`. -/
theorem C3_counterexample :
    ¬ (treePathsList (jsonToTree jDotKey "$")).Nodup := by
  decide

/-! ### Claim C6 -/

/-- Claim C6: matching the query `"b"` (no leading `$`; trimmed and
prefixed to `"$.b"`) over the flattened `\x7b"a":1,"b":[2,3]\x7d`
node list returns a list containing at least `$.b`, `$.b[0]` and
`$.b[1]`. -/
theorem C6_contains_b_family :
    "$.b" ∈ searchNodes (treeToFlow (jsonToTree jAB "$") 400 50).1 "b"
    ∧ "$.b[0]" ∈ searchNodes (treeToFlow (jsonToTree jAB "$") 400 50).1 "b"
    ∧ "$.b[1]" ∈ searchNodes (treeToFlow (jsonToTree jAB "$") 400 50).1 "b" := by
  refine ⟨by decide, by decide, by decide⟩

/-! ### Claim C7 -/

/-- Claim C7: building a tree from `null` — and identically from
`undefined` — yields exactly one node, of kind primitive, with path
`"$"`, zero children, and a label containing `"null"`. -/
theorem C7_null_undefined_single_primitive :
    jsonToTree Json.undef "$" = jsonToTree Json.null "$"
    ∧ (jsonToTree Json.null "$").map (fun t => (t.path, t.type, t.children.length))
        = [("$", JsonNodeType.primitive, 0)]
    ∧ ((jsonToTree Json.null "$").map TreeNode.label).all
        (fun l => strIncludes l "null") = true := by
  refine ⟨rfl, by decide, by decide⟩

/-! ### Claim C8 -/

/-- Claim C8: building a tree from the empty array `[]` yields a
single node of kind array with zero children, and flattening it (from
any origin) yields exactly one positioned node and zero edges. -/
theorem C8_empty_array (sx sy : Int) :
    (jsonToTree (Json.arr []) "$").map (fun t => (t.type, t.children.length))
        = [(JsonNodeType.array, 0)]
    ∧ (treeToFlow (jsonToTree (Json.arr []) "$") sx sy).1.length = 1
    ∧ (treeToFlow (jsonToTree (Json.arr []) "$") sx sy).2.length = 0 :=
  ⟨by decide, rfl, rfl⟩

/-! ### Claim C9 -/

/-- Claim C9: for every node list, the matcher returns the empty list
for a query that trims to the empty string (empty or
whitespace-only), via the early return before normalization. -/
theorem C9_empty_query (nodes : List FlowNode) (q : String)
    (h : jsTrim q = "") : searchNodes nodes q = [] := by
  unfold searchNodes
  rw [if_pos h]

/-- Witness for C9 at the whitespace-only query `"  "` over a
one-node list. -/
theorem C9_empty_query_witness :
    jsTrim "  " = "" ∧ searchNodes [sampleNode] "  " = [] :=
  ⟨by decide, C9_empty_query [sampleNode] "  " (by decide)⟩

/-! ### Claim C10 -/

/-- Claim C10: the path-validity predicate returns `true` exactly for
the strings containing at least one non-whitespace character — the
path grammar test is short-circuited by the `path.trim() !== ''`
disjunct — and `false` exactly for empty or whitespace-only strings. -/
theorem C10_validity_iff_nonwhitespace (s : String) :
    isValidJsonPath s = true ↔ ∃ c ∈ s.data, c.isWhitespace = false := by
  unfold isValidJsonPath
  by_cases h : jsTrim s = ""
  · rw [if_pos h]
    constructor
    · intro hF; cases hF
    · rintro ⟨c, hc, hw⟩
      have := (jsTrim_eq_empty_iff s).mp h c hc
      rw [this] at hw; cases hw
  · rw [if_neg h]
    constructor
    · intro _
      by_contra hno
      push_neg at hno
      refine h ((jsTrim_eq_empty_iff s).mpr (fun c hc => ?_))
      have := hno c hc
      simpa using this
    · intro _
      have hb : (jsTrim s != "") = true := bne_iff_ne.mpr h
      simp [hb]

/-! ### Claim C5 -/

theorem foldl_pushes (g : FlowNode → Bool)
    (step : List String → FlowNode → List String)
    (hstep : ∀ acc n, step acc n = acc ++ (if g n then [n.id] else [])) :
    ∀ (ns : List FlowNode) (acc : List String),
      ns.foldl step acc = acc ++ (ns.filter g).map FlowNode.id := by
  intro ns
  induction ns with
  | nil => intro acc; simp
  | cons n ns ih =>
    intro acc
    rw [List.foldl_cons, hstep, ih, List.filter_cons]
    by_cases hg : g n = true <;> simp [hg]

/-- Claim C5: for every node list and every query, each node
contributes at most one entry to the matcher's result — the result is
exactly the ids of the nodes passing the per-node match test, one
entry per matching node, in input traversal order, with no further
sorting or deduplication (and the empty list for a blank query). -/
theorem C5_one_entry_per_node (nodes : List FlowNode) (q : String) :
    searchNodes nodes q =
      if jsTrim q = "" then []
      else (nodes.filter (nodeMatches (normalizePattern q))).map FlowNode.id := by
  unfold searchNodes
  by_cases h : jsTrim q = ""
  · rw [if_pos h, if_pos h]
  · rw [if_neg h, if_neg h]
    rw [foldl_pushes (nodeMatches (normalizePattern q)) _ ?_ nodes []]
    · rw [List.nil_append]
    · intro acc n
      have hpat : (if startsWithStr (jsTrim q) "$" then jsTrim q
          else "$." ++ jsTrim q) = normalizePattern q := rfl
      simp only [hpat]
      unfold nodeMatches
      by_cases h1 : n.data.path = normalizePattern q
      · simp [h1]
      · rw [if_neg h1]
        have h1' : decide (n.data.path = normalizePattern q) = false := by
          simp [h1]
        rw [h1']
        simp only [Bool.false_or, Bool.or_false]
        split <;> simp_all

/-! ### Structure of trees and of the flattener's work queue -/

theorem treeIds_eq (t : TreeNode) : treeIds t = t.id :: treeIdsList t.children := by
  cases t; rfl

theorem sizeT_eq (t : TreeNode) : sizeT t = 1 + sizeTs t.children := by
  cases t; rfl

theorem sizeTs_eq_sum (cs : List TreeNode) : sizeTs cs = (cs.map sizeT).sum := by
  induction cs with
  | nil => rfl
  | cons t ts ih => simp [sizeTs, ih]

theorem treeIdsList_eq_flatten (cs : List TreeNode) :
    treeIdsList cs = (cs.map treeIds).flatten := by
  induction cs with
  | nil => rfl
  | cons t ts ih => simp [treeIdsList, ih]

mutual

theorem treeIds_length : ∀ t : TreeNode, (treeIds t).length = sizeT t
  | .mk i p l v ty cs => by
    simp only [treeIds, sizeT, List.length_cons, treeIdsList_length cs]
    omega

theorem treeIdsList_length : ∀ cs : List TreeNode, (treeIdsList cs).length = sizeTs cs
  | [] => rfl
  | t :: ts => by
    simp only [treeIdsList, sizeTs, List.length_append, treeIds_length t,
      treeIdsList_length ts]

end

theorem childQueueItems_map {β : Type} (tn : TreeNode) (x cy : Int)
    (G : TreeNode → β) :
    (childQueueItems tn x cy).map (fun q => G q.treeNode) = tn.children.map G := by
  unfold childQueueItems
  simp only [List.map_map]
  show tn.children.enum.map (fun p => G p.2) = tn.children.map G
  rw [show (fun p : Nat × TreeNode => G p.2) = G ∘ Prod.snd from rfl]
  rw [← List.map_map, List.enum_map_snd]

theorem qSize_cons (i : QueueItem) (r : List QueueItem) :
    qSize (i :: r) = sizeT i.treeNode + qSize r := by
  simp [qSize]

theorem qSize_append (a b : List QueueItem) :
    qSize (a ++ b) = qSize a + qSize b := by
  simp [qSize]

theorem qSize_childQueueItems (tn : TreeNode) (x cy : Int) :
    qSize (childQueueItems tn x cy) = sizeTs tn.children := by
  unfold qSize
  rw [childQueueItems_map tn x cy sizeT, ← sizeTs_eq_sum]

theorem queueIds_cons (i : QueueItem) (r : List QueueItem) :
    queueIds (i :: r) = treeIds i.treeNode ++ queueIds r := by
  simp [queueIds]

theorem queueIds_append (a b : List QueueItem) :
    queueIds (a ++ b) = queueIds a ++ queueIds b := by
  simp [queueIds]

theorem queueIds_childQueueItems (tn : TreeNode) (x cy : Int) :
    queueIds (childQueueItems tn x cy) = treeIdsList tn.children := by
  unfold queueIds
  rw [childQueueItems_map tn x cy treeIds, ← treeIdsList_eq_flatten]

theorem parentEdges_length (item : QueueItem) :
    (parentEdges item).length = if item.parentId.isNone then 0 else 1 := by
  cases h : item.parentId <;> simp [parentEdges, h]

theorem childQueueItems_countP_none (tn : TreeNode) (x cy : Int) :
    (childQueueItems tn x cy).countP (fun q => q.parentId.isNone) = 0 := by
  unfold childQueueItems
  rw [List.countP_eq_zero]
  intro q hq
  rcases List.mem_map.mp hq with ⟨p, _, rfl⟩
  simp

/-! ### The flattener emits one node per tree node -/

theorem aux_ids_perm : ∀ (fuel : Nat) (queue : List QueueItem)
    (lvlY : List (Nat × Int)), qSize queue ≤ fuel →
    List.Perm ((treeToFlowAux fuel queue lvlY).1.map FlowNode.id)
      (queueIds queue) := by
  intro fuel
  induction fuel with
  | zero =>
    intro queue lvlY hf
    cases queue with
    | nil => simp [treeToFlowAux, queueIds]
    | cons item rest =>
      exfalso
      have h1 := qSize_cons item rest
      have h2 := sizeT_eq item.treeNode
      omega
  | succ f ih =>
    intro queue lvlY hf
    cases queue with
    | nil => simp [treeToFlowAux, queueIds]
    | cons item rest =>
      simp only [treeToFlowAux]
      by_cases hc : item.treeNode.children.length > 0
      · simp only [if_pos hc]
        have hf' : qSize (rest ++ childQueueItems item.treeNode item.x
            (nextChildY lvlY (pathLevel item.treeNode.path) item.y)) ≤ f := by
          rw [qSize_append, qSize_childQueueItems]
          have h1 := qSize_cons item rest
          have h2 := sizeT_eq item.treeNode
          omega
        have hrec := ih (rest ++ childQueueItems item.treeNode item.x
            (nextChildY lvlY (pathLevel item.treeNode.path) item.y))
          (setLevelY lvlY (pathLevel item.treeNode.path + 1)
            (nextChildY lvlY (pathLevel item.treeNode.path) item.y + 280)) hf'
        simp only [List.map_cons]
        rw [queueIds_cons, treeIds_eq, List.cons_append]
        refine List.Perm.cons _ ?_
        refine hrec.trans ?_
        rw [queueIds_append, queueIds_childQueueItems]
        exact List.perm_append_comm
      · simp only [if_neg hc]
        have hcs : item.treeNode.children = [] := by
          have : item.treeNode.children.length = 0 := by omega
          exact List.eq_nil_of_length_eq_zero this
        have hf' : qSize rest ≤ f := by
          have h1 := qSize_cons item rest
          have h2 := sizeT_eq item.treeNode
          omega
        have hrec := ih rest lvlY hf'
        simp only [List.map_cons]
        rw [queueIds_cons, treeIds_eq, hcs]
        simp only [treeIdsList, List.nil_append, List.cons_append]
        exact hrec.cons _

theorem aux_edges_len : ∀ (fuel : Nat) (queue : List QueueItem)
    (lvlY : List (Nat × Int)), qSize queue ≤ fuel →
    (treeToFlowAux fuel queue lvlY).2.length
      + queue.countP (fun q => q.parentId.isNone) = qSize queue := by
  intro fuel
  induction fuel with
  | zero =>
    intro queue lvlY hf
    cases queue with
    | nil => simp [treeToFlowAux, qSize]
    | cons item rest =>
      exfalso
      have h1 := qSize_cons item rest
      have h2 := sizeT_eq item.treeNode
      omega
  | succ f ih =>
    intro queue lvlY hf
    cases queue with
    | nil => simp [treeToFlowAux, qSize]
    | cons item rest =>
      simp only [treeToFlowAux]
      by_cases hc : item.treeNode.children.length > 0
      · simp only [if_pos hc]
        have hf' : qSize (rest ++ childQueueItems item.treeNode item.x
            (nextChildY lvlY (pathLevel item.treeNode.path) item.y)) ≤ f := by
          rw [qSize_append, qSize_childQueueItems]
          have h1 := qSize_cons item rest
          have h2 := sizeT_eq item.treeNode
          omega
        have hrec := ih (rest ++ childQueueItems item.treeNode item.x
            (nextChildY lvlY (pathLevel item.treeNode.path) item.y))
          (setLevelY lvlY (pathLevel item.treeNode.path + 1)
            (nextChildY lvlY (pathLevel item.treeNode.path) item.y + 280)) hf'
        rw [qSize_append, qSize_childQueueItems] at hrec
        simp only [List.length_append, parentEdges_length item]
        rw [List.countP_cons, List.countP_append, childQueueItems_countP_none] at *
        have h1 := qSize_cons item rest
        have h2 := sizeT_eq item.treeNode
        by_cases hp : item.parentId.isNone <;> simp [hp] at * <;> omega
      · simp only [if_neg hc]
        have hcs : item.treeNode.children = [] := by
          have : item.treeNode.children.length = 0 := by omega
          exact List.eq_nil_of_length_eq_zero this
        have hf' : qSize rest ≤ f := by
          have h1 := qSize_cons item rest
          have h2 := sizeT_eq item.treeNode
          omega
        have hrec := ih rest lvlY hf'
        simp only [List.length_append, parentEdges_length item, List.countP_cons]
        have h1 := qSize_cons item rest
        have h2 := sizeT_eq item.treeNode
        have h3 : sizeTs item.treeNode.children = 0 := by rw [hcs]; rfl
        by_cases hp : item.parentId.isNone <;> simp [hp] at * <;> omega

theorem treeToFlow_cons (root : TreeNode) (rest : List TreeNode) (sx sy : Int) :
    treeToFlow (root :: rest) sx sy
      = treeToFlowAux (sizeT root)
          [{ treeNode := root, parentId := none, x := sx, y := sy }] [(0, sy)] := rfl

theorem jsonToTree_singleton (j : Json) (p : String) :
    ∃ t, jsonToTree j p = [t] := by
  cases j <;> exact ⟨_, rfl⟩

theorem childQueueItems_map_treeNode (tn : TreeNode) (x cy : Int) :
    (childQueueItems tn x cy).map (fun q => q.treeNode) = tn.children := by
  have h := childQueueItems_map tn x cy (fun t => t)
  simpa using h

theorem aux_ids_bfs : ∀ (fuel : Nat) (queue : List QueueItem)
    (lvlY : List (Nat × Int)),
    (treeToFlowAux fuel queue lvlY).1.map FlowNode.id
      = bfsIdsAux fuel (queue.map (fun q => q.treeNode)) := by
  intro fuel
  induction fuel with
  | zero =>
    intro queue lvlY
    cases queue with
    | nil => simp [treeToFlowAux, bfsIdsAux]
    | cons item rest => simp [treeToFlowAux, bfsIdsAux]
  | succ f ih =>
    intro queue lvlY
    cases queue with
    | nil => simp [treeToFlowAux, bfsIdsAux]
    | cons item rest =>
      simp only [treeToFlowAux, List.map_cons]
      by_cases hc : item.treeNode.children.length > 0
      · rw [if_pos hc]
        dsimp only
        simp only [List.map_cons, bfsIdsAux]
        refine congrArg (fun l => item.treeNode.id :: l) ?_
        rw [ih]
        refine congrArg (bfsIdsAux f) ?_
        rw [List.map_append, childQueueItems_map_treeNode]
      · rw [if_neg hc]
        dsimp only
        have hcs : item.treeNode.children = [] :=
          List.eq_nil_of_length_eq_zero (by omega)
        simp only [List.map_cons, bfsIdsAux, hcs, List.append_nil]
        refine congrArg (fun l => item.treeNode.id :: l) ?_
        exact ih rest lvlY

/-! ### Claim C4 -/

/-- Claim C4: for every decoded JSON value and any origin, flattening
the built tree produces exactly one positioned node per tree node —
the output ids are a permutation of the tree's ids, the counts agree,
and the output id sequence equals, element for element, the reference
breadth-first level-order listing of the built tree — and the edge
count equals the node count minus one. -/
theorem C4_flatten_preserves_nodes (j : Json) (sx sy : Int) :
    (treeToFlow (jsonToTree j "$") sx sy).1.length = sizeTs (jsonToTree j "$")
    ∧ (treeToFlow (jsonToTree j "$") sx sy).2.length + 1
        = (treeToFlow (jsonToTree j "$") sx sy).1.length
    ∧ List.Perm ((treeToFlow (jsonToTree j "$") sx sy).1.map FlowNode.id)
        (treeIdsList (jsonToTree j "$"))
    ∧ (treeToFlow (jsonToTree j "$") sx sy).1.map FlowNode.id
        = bfsIds (jsonToTree j "$") := by
  obtain ⟨root, hroot⟩ := jsonToTree_singleton j "$"
  rw [hroot, treeToFlow_cons]
  have hq : qSize [{ treeNode := root, parentId := none, x := sx, y := sy }]
      ≤ sizeT root := by
    rw [qSize_cons]
    simp [qSize]
  have hperm := aux_ids_perm (sizeT root)
    [{ treeNode := root, parentId := none, x := sx, y := sy }] [(0, sy)] hq
  have hqids : queueIds [{ treeNode := root, parentId := none, x := sx, y := sy }]
      = treeIds root := by
    simp [queueIds]
  rw [hqids] at hperm
  have hlen : (treeToFlowAux (sizeT root)
      [{ treeNode := root, parentId := none, x := sx, y := sy }] [(0, sy)]).1.length
      = sizeT root := by
    have := hperm.length_eq
    rw [List.length_map] at this
    rw [this, treeIds_length]
  have hedges := aux_edges_len (sizeT root)
    [{ treeNode := root, parentId := none, x := sx, y := sy }] [(0, sy)] hq
  have hcount : ([{ treeNode := root, parentId := none, x := sx, y := sy }]
      : List QueueItem).countP (fun q => q.parentId.isNone) = 1 := by
    simp [List.countP_cons]
  rw [hcount] at hedges
  rw [qSize_cons] at hedges
  simp only [qSize, List.map_nil, List.sum_nil] at hedges
  refine ⟨?_, ?_, ?_, ?_⟩
  · rw [hlen]
    simp [sizeTs]
  · rw [hlen]
    have h2 := sizeT_eq root
    omega
  · have htl : treeIdsList [root] = treeIds root := by simp [treeIdsList]
    rw [htl]
    exact hperm
  · have hbfs := aux_ids_bfs (sizeT root)
      [{ treeNode := root, parentId := none, x := sx, y := sy }] [(0, sy)]
    rw [hbfs]
    unfold bfsIds
    have hsz : sizeTs [root] = sizeT root := by simp [sizeTs]
    rw [hsz]
    rfl

/-! ### String append and decimal-rendering facts -/

theorem strData_append (s t : String) : (s ++ t).data = s.data ++ t.data :=
  String.data_append s t

theorem strExt {s t : String} (h : s.data = t.data) : s = t := by
  cases s; cases t; exact congrArg String.mk h

theorem strAppend_left_cancel {p a b : String} (h : p ++ a = p ++ b) : a = b := by
  apply strExt
  have hd := congrArg String.data h
  rw [strData_append, strData_append] at hd
  exact List.append_cancel_left hd

theorem strAppend_inj (p : String) : Function.Injective (fun r => p ++ r) :=
  fun _ _ h => strAppend_left_cancel h

theorem digitVal_digitChar {d : Nat} (h : d < 10) :
    digitVal (Nat.digitChar d) = d := by
  interval_cases d <;> rfl

theorem digitChar_not_delim {d : Nat} (h : d < 10) :
    isDelim (Nat.digitChar d) = false := by
  interval_cases d <;> rfl

theorem decodeDigits_append_one (l : List Char) (c : Char) :
    decodeDigits (l ++ [c]) = decodeDigits l * 10 + digitVal c := by
  unfold decodeDigits
  rw [List.foldl_append]
  rfl

theorem natToStringAux_decode : ∀ (fuel n : Nat), n < fuel →
    decodeDigits (natToStringAux fuel n) = n := by
  intro fuel
  induction fuel with
  | zero => intro n h; omega
  | succ f ih =>
    intro n h
    unfold natToStringAux
    by_cases h10 : n < 10
    · rw [if_pos h10]
      show decodeDigits [Nat.digitChar n] = n
      unfold decodeDigits
      simp only [List.foldl_cons, List.foldl_nil, Nat.zero_mul, Nat.zero_add]
      exact digitVal_digitChar h10
    · rw [if_neg h10]
      rw [decodeDigits_append_one]
      have hdivlt : n / 10 < f := by
        have hlt : n / 10 < n := Nat.div_lt_self (by omega) (by omega)
        omega
      rw [ih (n / 10) hdivlt, digitVal_digitChar (Nat.mod_lt n (by omega))]
      omega

theorem natToString_inj : Function.Injective natToString := by
  intro m n h
  have hd : natToStringAux (m + 1) m = natToStringAux (n + 1) n :=
    congrArg String.data h
  have h1 := natToStringAux_decode (m + 1) m (by omega)
  have h2 := natToStringAux_decode (n + 1) n (by omega)
  rw [hd] at h1
  exact h1.symm.trans h2

theorem natToStringAux_not_delim : ∀ (fuel n : Nat), ∀ c ∈ natToStringAux fuel n,
    isDelim c = false := by
  intro fuel
  induction fuel with
  | zero => intro n c hc; simp [natToStringAux] at hc
  | succ f ih =>
    intro n c hc
    unfold natToStringAux at hc
    by_cases h10 : n < 10
    · rw [if_pos h10] at hc
      simp only [List.mem_singleton] at hc
      subst hc
      exact digitChar_not_delim h10
    · rw [if_neg h10] at hc
      rcases List.mem_append.mp hc with hmem | hmem
      · exact ih _ _ hmem
      · simp only [List.mem_singleton] at hmem
        subst hmem
        exact digitChar_not_delim (Nat.mod_lt n (by omega))

theorem natToString_not_delim (n : Nat) : ∀ c ∈ (natToString n).data,
    isDelim c = false :=
  natToStringAux_not_delim (n + 1) n

/-! ### Cancellation of delimiter-free prefixes -/

/-- The suffix shapes the relative-path analysis produces: empty, or
starting with a delimiter character. -/
def delimHeadL (u : List Char) : Prop :=
  u = [] ∨ ∃ c l, u = c :: l ∧ isDelim c = true

theorem clean_append_inj : ∀ (a b u v : List Char),
    (∀ c ∈ a, isDelim c = false) → (∀ c ∈ b, isDelim c = false) →
    delimHeadL u → delimHeadL v → a ++ u = b ++ v → a = b ∧ u = v := by
  intro a
  induction a with
  | nil =>
    intro b u v _ hb hu _ h
    cases b with
    | nil => exact ⟨rfl, by simpa using h⟩
    | cons y b' =>
      exfalso
      simp only [List.nil_append, List.cons_append] at h
      rcases hu with rfl | ⟨c, l, rfl, hc⟩
      · cases h
      · have hcy : c = y := by injection h
        have hy := hb y (by simp)
        rw [hcy, hy] at hc
        cases hc
  | cons x a' ih =>
    intro b u v ha hb hu hv h
    cases b with
    | nil =>
      exfalso
      simp only [List.cons_append, List.nil_append] at h
      rcases hv with rfl | ⟨c, l, rfl, hc⟩
      · cases h
      · have hxc : c = x := by injection h.symm
        have hx := ha x (by simp)
        rw [hxc, hx] at hc
        cases hc
    | cons y b' =>
      simp only [List.cons_append] at h
      have hxy : x = y := by injection h
      have htail : a' ++ u = b' ++ v := by injection h
      subst hxy
      obtain ⟨h1, h2⟩ := ih b' u v (fun c hc => ha c (by simp [hc]))
        (fun c hc => hb c (by simp [hc])) hu hv htail
      exact ⟨by rw [h1], h2⟩

/-! ### Relative paths: membership shapes and key hygiene -/

theorem relPathsArr_mem : ∀ (js : List Json) (i : Nat) (x : String),
    x ∈ relPathsArr js i →
    ∃ n r, i ≤ n ∧ (∃ jj ∈ js, r ∈ relPaths jj)
      ∧ x = "[" ++ natToString n ++ "]" ++ r := by
  intro js
  induction js with
  | nil => intro i x hx; simp [relPathsArr] at hx
  | cons j js ih =>
    intro i x hx
    rcases List.mem_append.mp hx with hmem | hmem
    · obtain ⟨r, hr, rfl⟩ := List.mem_map.mp hmem
      exact ⟨i, r, Nat.le_refl i, ⟨j, by simp, hr⟩, rfl⟩
    · obtain ⟨n, r, hn, ⟨jj, hjj, hr⟩, heq⟩ := ih (i + 1) x hmem
      exact ⟨n, r, by omega, ⟨jj, by simp [hjj], hr⟩, heq⟩

theorem relPathsObj_mem : ∀ (fs : List (String × Json)) (x : String),
    x ∈ relPathsObj fs →
    ∃ k v r, (k, v) ∈ fs ∧ r ∈ relPaths v ∧ x = "." ++ k ++ r := by
  intro fs
  induction fs with
  | nil => intro x hx; simp [relPathsObj] at hx
  | cons kv fs ih =>
    intro x hx
    obtain ⟨k, v⟩ := kv
    rcases List.mem_append.mp hx with hmem | hmem
    · obtain ⟨r, hr, rfl⟩ := List.mem_map.mp hmem
      exact ⟨k, v, r, by simp, hr, rfl⟩
    · obtain ⟨k2, v2, r, hmem2, hr, heq⟩ := ih x hmem
      exact ⟨k2, v2, r, by simp [hmem2], hr, heq⟩

theorem relPaths_shape (j : Json) (r : String) (h : r ∈ relPaths j) :
    delimHeadL r.data := by
  cases j with
  | arr items =>
    rcases List.mem_cons.mp h with rfl | hmem
    · exact Or.inl rfl
    · obtain ⟨n, r2, _, _, rfl⟩ := relPathsArr_mem items 0 r hmem
      refine Or.inr ⟨'[', (natToString n).data ++ ']' :: r2.data, ?_, rfl⟩
      simp [strData_append]
  | obj fields =>
    rcases List.mem_cons.mp h with rfl | hmem
    · exact Or.inl rfl
    · obtain ⟨k, v, r2, _, _, rfl⟩ := relPathsObj_mem fields r hmem
      refine Or.inr ⟨'.', k.data ++ r2.data, ?_, rfl⟩
      simp [strData_append]
  | null => rcases List.mem_singleton.mp h with rfl; exact Or.inl rfl
  | undef => rcases List.mem_singleton.mp h with rfl; exact Or.inl rfl
  | bool b => rcases List.mem_singleton.mp h with rfl; exact Or.inl rfl
  | num n => rcases List.mem_singleton.mp h with rfl; exact Or.inl rfl
  | str s => rcases List.mem_singleton.mp h with rfl; exact Or.inl rfl

theorem cleanKey_chars {k : String} (hk : cleanKey k = true) :
    ∀ c ∈ k.data, isDelim c = false := by
  intro c hc
  have := List.all_eq_true.mp hk c hc
  simpa using this

theorem cleanKeysObj_cons {k : String} {v : Json} {fs : List (String × Json)}
    (h : cleanKeysObj ((k, v) :: fs) = true) :
    cleanKey k = true ∧ (∀ kv ∈ fs, kv.1 ≠ k)
      ∧ cleanKeys v = true ∧ cleanKeysObj fs = true := by
  have h' := h
  unfold cleanKeysObj at h'
  simp only [Bool.and_eq_true] at h'
  obtain ⟨⟨⟨hk, hall⟩, hv⟩, hfs⟩ := h'
  refine ⟨hk, ?_, hv, hfs⟩
  intro kv hkv
  have := List.all_eq_true.mp hall kv hkv
  simpa using this

theorem cleanKeysObj_mem : ∀ (fs : List (String × Json)),
    cleanKeysObj fs = true → ∀ {k : String} {v : Json}, (k, v) ∈ fs →
    cleanKey k = true ∧ cleanKeys v = true := by
  intro fs
  induction fs with
  | nil => intro _ k v hmem; simp at hmem
  | cons kv fs ih =>
    intro h k v hmem
    obtain ⟨k1, v1⟩ := kv
    obtain ⟨hk1, _, hv1, hfs⟩ := cleanKeysObj_cons h
    rcases List.mem_cons.mp hmem with heq | hmem2
    · cases heq
      exact ⟨hk1, hv1⟩
    · exact ih hfs hmem2

theorem cleanKeysArr_mem : ∀ (js : List Json), cleanKeysArr js = true →
    ∀ {jj : Json}, jj ∈ js → cleanKeys jj = true := by
  intro js
  induction js with
  | nil => intro _ jj hmem; simp at hmem
  | cons j js ih =>
    intro h jj hmem
    have h' := h
    unfold cleanKeysArr at h'
    simp only [Bool.and_eq_true] at h'
    rcases List.mem_cons.mp hmem with rfl | hmem2
    · exact h'.1
    · exact ih h'.2 hmem2

/-! ### Sibling path blocks are pairwise disjoint -/

theorem obj_block_disjoint {k1 k2 r1 r2 : String}
    (hk1 : cleanKey k1 = true) (hk2 : cleanKey k2 = true)
    (h1 : delimHeadL r1.data) (h2 : delimHeadL r2.data)
    (hne : k1 ≠ k2) : "." ++ k1 ++ r1 ≠ "." ++ k2 ++ r2 := by
  intro h
  have hd := congrArg String.data h
  simp only [strData_append] at hd
  have hd2 : k1.data ++ r1.data = k2.data ++ r2.data := by
    have : ('.' :: (k1.data ++ r1.data) : List Char)
        = '.' :: (k2.data ++ r2.data) := by
      simpa using hd
    injection this
  obtain ⟨hkeq, _⟩ := clean_append_inj k1.data k2.data r1.data r2.data
    (cleanKey_chars hk1) (cleanKey_chars hk2) h1 h2 hd2
  exact hne (strExt hkeq)

theorem arr_block_disjoint {n m : Nat} {r1 r2 : String}
    (h1 : delimHeadL r1.data) (h2 : delimHeadL r2.data) (hne : n ≠ m) :
    "[" ++ natToString n ++ "]" ++ r1 ≠ "[" ++ natToString m ++ "]" ++ r2 := by
  intro h
  have hd := congrArg String.data h
  simp only [strData_append] at hd
  have hd2 : (natToString n).data ++ (']' :: r1.data)
      = (natToString m).data ++ (']' :: r2.data) := by
    have : ('[' :: ((natToString n).data ++ (']' :: r1.data)) : List Char)
        = '[' :: ((natToString m).data ++ (']' :: r2.data)) := by
      simpa using hd
    injection this
  obtain ⟨hkeq, _⟩ := clean_append_inj (natToString n).data (natToString m).data
    (']' :: r1.data) (']' :: r2.data)
    (natToString_not_delim n) (natToString_not_delim m)
    (Or.inr ⟨']', r1.data, rfl, rfl⟩) (Or.inr ⟨']', r2.data, rfl, rfl⟩) hd2
  exact hne (natToString_inj (strExt hkeq))

/-! ### Path uniqueness for clean keys -/

mutual

theorem relPaths_nodup : ∀ (j : Json), cleanKeys j = true → (relPaths j).Nodup
  | .null, _ => by simp [relPaths]
  | .undef, _ => by simp [relPaths]
  | .bool b, _ => by simp [relPaths]
  | .num n, _ => by simp [relPaths]
  | .str s, _ => by simp [relPaths]
  | .arr items, h => by
    refine List.nodup_cons.mpr ⟨?_, relPathsArr_nodup items 0 h⟩
    intro hmem
    obtain ⟨n, r, _, _, heq⟩ := relPathsArr_mem items 0 "" hmem
    have := congrArg String.data heq
    simp [strData_append] at this
  | .obj fields, h => by
    refine List.nodup_cons.mpr ⟨?_, relPathsObj_nodup fields h⟩
    intro hmem
    obtain ⟨k, v, r, _, _, heq⟩ := relPathsObj_mem fields "" hmem
    have := congrArg String.data heq
    simp [strData_append] at this

theorem relPathsArr_nodup : ∀ (js : List Json) (i : Nat),
    cleanKeysArr js = true → (relPathsArr js i).Nodup
  | [], _, _ => by simp [relPathsArr]
  | j :: js, i, h => by
    have h' : cleanKeys j = true ∧ cleanKeysArr js = true := by
      have h2 := h
      unfold cleanKeysArr at h2
      simpa [Bool.and_eq_true] using h2
    refine List.Nodup.append
      (List.Nodup.map (strAppend_inj ("[" ++ natToString i ++ "]"))
        (relPaths_nodup j h'.1))
      (relPathsArr_nodup js (i + 1) h'.2) ?_
    intro x hx1 hx2
    obtain ⟨r1, hr1, rfl⟩ := List.mem_map.mp hx1
    obtain ⟨n, r2, hn, ⟨jj, hjj, hr2⟩, heq⟩ := relPathsArr_mem js (i + 1) _ hx2
    exact arr_block_disjoint (relPaths_shape j r1 hr1)
      (relPaths_shape jj r2 hr2) (by omega) heq

theorem relPathsObj_nodup : ∀ (fs : List (String × Json)),
    cleanKeysObj fs = true → (relPathsObj fs).Nodup
  | [], _ => by simp [relPathsObj]
  | (k, v) :: fs, h => by
    obtain ⟨hk, hfresh, hv, hfs⟩ := cleanKeysObj_cons h
    refine List.Nodup.append
      (List.Nodup.map (strAppend_inj ("." ++ k)) (relPaths_nodup v hv))
      (relPathsObj_nodup fs hfs) ?_
    intro x hx1 hx2
    obtain ⟨r1, hr1, rfl⟩ := List.mem_map.mp hx1
    obtain ⟨k2, v2, r2, hmem2, hr2, heq⟩ := relPathsObj_mem fs _ hx2
    have hk2 := (cleanKeysObj_mem fs hfs hmem2).1
    refine obj_block_disjoint hk hk2 (relPaths_shape v r1 hr1)
      (relPaths_shape v2 r2 hr2) ?_ heq
    exact fun hkk => (hfresh (k2, v2) hmem2) (by simp [hkk])

end

/-! ### The builder's paths are the parent path plus the relative paths -/

theorem treePathsList_append (as bs : List TreeNode) :
    treePathsList (as ++ bs) = treePathsList as ++ treePathsList bs := by
  induction as with
  | nil => simp [treePathsList]
  | cons t ts ih => simp [treePathsList, ih]

theorem objChildPath_eq (p k : String) :
    (if p = "$" then "$." ++ k else p ++ "." ++ k) = p ++ ("." ++ k) := by
  by_cases hp : p = "$"
  · subst hp
    rfl
  · rw [if_neg hp, String.append_assoc]

mutual

theorem paths_jsonToTree : ∀ (j : Json) (p : String),
    treePathsList (jsonToTree j p) = (relPaths j).map (fun r => p ++ r)
  | .null, p => by
    simp [jsonToTree, treePathsList, treePaths, relPaths]
  | .undef, p => by
    simp [jsonToTree, treePathsList, treePaths, relPaths]
  | .bool b, p => by
    simp [jsonToTree, treePathsList, treePaths, relPaths]
  | .num n, p => by
    simp [jsonToTree, treePathsList, treePaths, relPaths]
  | .str s, p => by
    simp [jsonToTree, treePathsList, treePaths, relPaths]
  | .arr items, p => by
    simp only [jsonToTree, treePathsList, treePaths, relPaths, List.map_cons]
    rw [paths_arr items p 0]
    simp
  | .obj fields, p => by
    simp only [jsonToTree, treePathsList, treePaths, relPaths, List.map_cons]
    rw [paths_obj fields p]
    simp

theorem paths_arr : ∀ (items : List Json) (p : String) (i : Nat),
    treePathsList (jsonToTreeArr items p i)
      = (relPathsArr items i).map (fun r => p ++ r)
  | [], p, i => rfl
  | j :: js, p, i => by
    show treePathsList (jsonToTree j (p ++ "[" ++ natToString i ++ "]")
        ++ jsonToTreeArr js p (i + 1))
      = ((relPaths j).map (fun r => "[" ++ natToString i ++ "]" ++ r)
        ++ relPathsArr js (i + 1)).map (fun r => p ++ r)
    rw [treePathsList_append, paths_jsonToTree j (p ++ "[" ++ natToString i ++ "]"),
      paths_arr js p (i + 1), List.map_append, List.map_map]
    have hfun : (fun r : String => p ++ "[" ++ natToString i ++ "]" ++ r)
        = ((fun r => p ++ r) ∘ fun r : String => "[" ++ natToString i ++ "]" ++ r) := by
      funext r
      simp [Function.comp, String.append_assoc]
    rw [hfun]

theorem paths_obj : ∀ (fields : List (String × Json)) (p : String),
    treePathsList (jsonToTreeObj fields p)
      = (relPathsObj fields).map (fun r => p ++ r)
  | [], p => rfl
  | (k, v) :: fs, p => by
    show treePathsList (jsonToTree v
        (if p = "$" then "$." ++ k else p ++ "." ++ k) ++ jsonToTreeObj fs p)
      = ((relPaths v).map (fun r => "." ++ k ++ r)
        ++ relPathsObj fs).map (fun r => p ++ r)
    rw [treePathsList_append, paths_jsonToTree v _, paths_obj fs p,
      List.map_append, List.map_map]
    have hfun : (fun r : String =>
          (if p = "$" then "$." ++ k else p ++ "." ++ k) ++ r)
        = ((fun r => p ++ r) ∘ fun r : String => "." ++ k ++ r) := by
      funext r
      rw [objChildPath_eq]
      simp [Function.comp, String.append_assoc]
    rw [hfun]

end

/-! ### Every built node has id equal to its path -/

theorem idsEqPathsL_append (as bs : List TreeNode) :
    idsEqPathsL (as ++ bs) = (idsEqPathsL as && idsEqPathsL bs) := by
  induction as with
  | nil => simp [idsEqPathsL]
  | cons t ts ih => simp [idsEqPathsL, ih, Bool.and_assoc]

mutual

theorem idsEqPaths_jsonToTree : ∀ (j : Json) (p : String),
    idsEqPathsL (jsonToTree j p) = true
  | .null, p => by simp [jsonToTree, idsEqPathsL, idsEqPathsT]
  | .undef, p => by simp [jsonToTree, idsEqPathsL, idsEqPathsT]
  | .bool b, p => by simp [jsonToTree, idsEqPathsL, idsEqPathsT]
  | .num n, p => by simp [jsonToTree, idsEqPathsL, idsEqPathsT]
  | .str s, p => by simp [jsonToTree, idsEqPathsL, idsEqPathsT]
  | .arr items, p => by
    simp [jsonToTree, idsEqPathsL, idsEqPathsT, idsEqPaths_arr items p 0]
  | .obj fields, p => by
    simp [jsonToTree, idsEqPathsL, idsEqPathsT, idsEqPaths_obj fields p]

theorem idsEqPaths_arr : ∀ (items : List Json) (p : String) (i : Nat),
    idsEqPathsL (jsonToTreeArr items p i) = true
  | [], p, i => rfl
  | j :: js, p, i => by
    show idsEqPathsL (jsonToTree j (p ++ "[" ++ natToString i ++ "]")
        ++ jsonToTreeArr js p (i + 1)) = true
    rw [idsEqPathsL_append, idsEqPaths_jsonToTree j _, idsEqPaths_arr js p (i + 1)]
    rfl

theorem idsEqPaths_obj : ∀ (fields : List (String × Json)) (p : String),
    idsEqPathsL (jsonToTreeObj fields p) = true
  | [], p => rfl
  | (k, v) :: fs, p => by
    show idsEqPathsL (jsonToTree v
        (if p = "$" then "$." ++ k else p ++ "." ++ k) ++ jsonToTreeObj fs p) = true
    rw [idsEqPathsL_append, idsEqPaths_jsonToTree v _, idsEqPaths_obj fs p]
    rfl

end

/-! ### Claim C3, amended -/

/-- Claim C3, amended: every node of every built tree has `id = path`;
and path uniqueness — no two nodes of one tree share a path string —
holds for every well-formed input whose object keys are pairwise
distinct at each object and avoid the delimiter characters `.`, `[`,
`]` (by `C3_counterexample` it cannot hold for arbitrary keys). -/
theorem C3_amended_id_eq_path_and_unique (j : Json) :
    idsEqPathsL (jsonToTree j "$") = true
    ∧ (cleanKeys j = true → (treePathsList (jsonToTree j "$")).Nodup) := by
  refine ⟨idsEqPaths_jsonToTree j "$", fun h => ?_⟩
  rw [paths_jsonToTree j "$"]
  exact List.Nodup.map (strAppend_inj "$") (relPaths_nodup j h)

/-- Witness for the amended C3 at the concrete document
`\x7b"a":1,"b":[2,3]\x7d`, whose keys are clean. -/
theorem C3_amended_witness :
    idsEqPathsL (jsonToTree jAB "$") = true
    ∧ (treePathsList (jsonToTree jAB "$")).Nodup :=
  ⟨(C3_amended_id_eq_path_and_unique jAB).1,
   (C3_amended_id_eq_path_and_unique jAB).2 (by decide)⟩

/-! ### Looking up a node's y-coordinate -/

theorem yOf_cons_self {fn : FlowNode} {ns : List FlowNode} {i : String}
    (h : fn.id = i) : yOf (fn :: ns) i = some fn.position.y := by
  unfold yOf
  rw [List.find?_cons_of_pos _ (by simp [h])]
  rfl

theorem yOf_cons_ne {fn : FlowNode} {ns : List FlowNode} {i : String}
    (h : fn.id ≠ i) : yOf (fn :: ns) i = yOf ns i := by
  unfold yOf
  rw [List.find?_cons_of_neg _ (by simp [h])]

theorem mem_queueIds_of_mem {q : QueueItem} :
    ∀ {queue : List QueueItem}, q ∈ queue → q.treeNode.id ∈ queueIds queue := by
  intro queue
  induction queue with
  | nil => intro h; cases h
  | cons it rest ih =>
    intro h
    rw [queueIds_cons, treeIds_eq]
    rcases List.mem_cons.mp h with rfl | hmem
    · simp
    · simp [ih hmem]

theorem parentEdges_shape {item : QueueItem} {e : Edge} (h : e ∈ parentEdges item) :
    item.parentId = some e.source ∧ e.target = item.treeNode.id := by
  unfold parentEdges at h
  cases hp : item.parentId with
  | none => rw [hp] at h; cases h
  | some pid =>
    rw [hp] at h
    rcases List.mem_singleton.mp h with rfl
    exact ⟨rfl, rfl⟩

theorem mem_childQueueItems {q : QueueItem} {tn : TreeNode} {x cy : Int}
    (h : q ∈ childQueueItems tn x cy) : q.parentId = some tn.id ∧ q.y = cy := by
  unfold childQueueItems at h
  obtain ⟨p, _, rfl⟩ := List.mem_map.mp h
  exact ⟨rfl, rfl⟩

theorem queueIds_step_sub {item : QueueItem} {rest : List QueueItem}
    {xx cy : Int} {x : String}
    (hx : x ∈ queueIds (rest ++ childQueueItems item.treeNode xx cy)) :
    x ∈ queueIds (item :: rest) := by
  rw [queueIds_append, queueIds_childQueueItems] at hx
  rw [queueIds_cons, treeIds_eq]
  rcases List.mem_append.mp hx with h | h
  · simp [List.mem_append, h]
  · simp [List.mem_append, List.mem_cons, h]

theorem head_id_mem {item : QueueItem} {rest : List QueueItem} :
    item.treeNode.id ∈ queueIds (item :: rest) := by
  rw [queueIds_cons, treeIds_eq]
  simp

theorem head_id_not_mem_step {item : QueueItem} {rest : List QueueItem}
    {xx cy : Int} (h : (queueIds (item :: rest)).Nodup) :
    item.treeNode.id ∉ queueIds (rest ++ childQueueItems item.treeNode xx cy) := by
  rw [queueIds_append, queueIds_childQueueItems]
  rw [queueIds_cons, treeIds_eq, List.cons_append] at h
  have hni := (List.nodup_cons.mp h).1
  intro hmem
  rcases List.mem_append.mp hmem with hm | hm
  · exact hni (by simp [List.mem_append, hm])
  · exact hni (by simp [List.mem_append, hm])

theorem head_id_not_mem_rest {item : QueueItem} {rest : List QueueItem}
    (h : (queueIds (item :: rest)).Nodup) :
    item.treeNode.id ∉ queueIds rest := by
  intro hmem
  rw [queueIds_cons, treeIds_eq, List.cons_append] at h
  exact (List.nodup_cons.mp h).1 (by simp [List.mem_append, hmem])

theorem nodup_step {item : QueueItem} {rest : List QueueItem} {xx cy : Int}
    (h : (queueIds (item :: rest)).Nodup) :
    (queueIds (rest ++ childQueueItems item.treeNode xx cy)).Nodup := by
  rw [queueIds_append, queueIds_childQueueItems]
  rw [queueIds_cons, treeIds_eq, List.cons_append] at h
  have h2 := (List.nodup_cons.mp h).2
  exact List.perm_append_comm.nodup h2

theorem nodup_rest {item : QueueItem} {rest : List QueueItem}
    (h : (queueIds (item :: rest)).Nodup) : (queueIds rest).Nodup := by
  rw [queueIds_cons] at h
  exact h.of_append_right

/-! ### Flattener invariants toward the sibling-y theorem -/

theorem aux_target_mem : ∀ (fuel : Nat) (queue : List QueueItem)
    (lvlY : List (Nat × Int)), ∀ e ∈ (treeToFlowAux fuel queue lvlY).2,
    e.target ∈ queueIds queue := by
  intro fuel
  induction fuel with
  | zero =>
    intro queue lvlY e he
    cases queue with
    | nil => simp [treeToFlowAux] at he
    | cons item rest => simp [treeToFlowAux] at he
  | succ f ih =>
    intro queue lvlY e he
    cases queue with
    | nil => simp [treeToFlowAux] at he
    | cons item rest =>
      simp only [treeToFlowAux] at he
      by_cases hc : item.treeNode.children.length > 0
      · rw [if_pos hc] at he
        rcases List.mem_append.mp he with hp | hr
        · rw [(parentEdges_shape hp).2]
          exact head_id_mem
        · exact queueIds_step_sub (ih _ _ e hr)
      · rw [if_neg hc] at he
        rcases List.mem_append.mp he with hp | hr
        · rw [(parentEdges_shape hp).2]
          exact head_id_mem
        · have := ih _ _ e hr
          rw [queueIds_cons]
          simp [List.mem_append, this]

theorem aux_edge_sib : ∀ (fuel : Nat) (queue : List QueueItem)
    (lvlY : List (Nat × Int)), ∀ e ∈ (treeToFlowAux fuel queue lvlY).2,
    e.source ∉ queueIds queue →
    ∃ qi ∈ queue, qi.parentId = some e.source ∧ e.target = qi.treeNode.id := by
  intro fuel
  induction fuel with
  | zero =>
    intro queue lvlY e he
    cases queue with
    | nil => simp [treeToFlowAux] at he
    | cons item rest => simp [treeToFlowAux] at he
  | succ f ih =>
    intro queue lvlY e he hs
    cases queue with
    | nil => simp [treeToFlowAux] at he
    | cons item rest =>
      simp only [treeToFlowAux] at he
      by_cases hc : item.treeNode.children.length > 0
      · rw [if_pos hc] at he
        rcases List.mem_append.mp he with hp | hr
        · exact ⟨item, by simp, (parentEdges_shape hp).1.symm ▸ (parentEdges_shape hp).1,
            (parentEdges_shape hp).2⟩
        · have hs' : e.source ∉ queueIds (rest ++ childQueueItems item.treeNode item.x
              (nextChildY lvlY (pathLevel item.treeNode.path) item.y)) :=
            fun hmem => hs (queueIds_step_sub hmem)
          obtain ⟨qi, hqi, hqip, hqit⟩ := ih _ _ e hr hs'
          rcases List.mem_append.mp hqi with hqir | hqic
          · exact ⟨qi, by simp [hqir], hqip, hqit⟩
          · exfalso
            have hp2 := (mem_childQueueItems hqic).1
            rw [hp2] at hqip
            have : item.treeNode.id = e.source := Option.some.inj hqip
            exact hs (this ▸ head_id_mem)
      · rw [if_neg hc] at he
        rcases List.mem_append.mp he with hp | hr
        · exact ⟨item, by simp, (parentEdges_shape hp).1, (parentEdges_shape hp).2⟩
        · have hs' : e.source ∉ queueIds rest := by
            intro hmem
            refine hs ?_
            rw [queueIds_cons]
            simp [List.mem_append, hmem]
          obtain ⟨qi, hqi, hqip, hqit⟩ := ih _ _ e hr hs'
          exact ⟨qi, by simp [hqi], hqip, hqit⟩

theorem aux_rootY : ∀ (fuel : Nat) (queue : List QueueItem)
    (lvlY : List (Nat × Int)), qSize queue ≤ fuel → (queueIds queue).Nodup →
    ∀ q ∈ queue, yOf (treeToFlowAux fuel queue lvlY).1 q.treeNode.id = some q.y := by
  intro fuel
  induction fuel with
  | zero =>
    intro queue lvlY hf _ q hq
    cases queue with
    | nil => cases hq
    | cons item rest =>
      exfalso
      have h1 := qSize_cons item rest
      have h2 := sizeT_eq item.treeNode
      omega
  | succ f ih =>
    intro queue lvlY hf h1 q hq
    cases queue with
    | nil => cases hq
    | cons item rest =>
      simp only [treeToFlowAux]
      by_cases hc : item.treeNode.children.length > 0
      · rw [if_pos hc]
        rcases List.mem_cons.mp hq with rfl | hmem
        · exact yOf_cons_self rfl
        · have hne : (mkFlowNode item).id ≠ q.treeNode.id := by
            show item.treeNode.id ≠ q.treeNode.id
            intro heq
            exact head_id_not_mem_rest h1 (heq ▸ mem_queueIds_of_mem hmem)
          rw [yOf_cons_ne hne]
          have hf' : qSize (rest ++ childQueueItems item.treeNode item.x
              (nextChildY lvlY (pathLevel item.treeNode.path) item.y)) ≤ f := by
            rw [qSize_append, qSize_childQueueItems]
            have ha := qSize_cons item rest
            have hb := sizeT_eq item.treeNode
            omega
          exact ih _ _ hf' (nodup_step h1) q (by simp [hmem])
      · rw [if_neg hc]
        rcases List.mem_cons.mp hq with rfl | hmem
        · exact yOf_cons_self rfl
        · have hne : (mkFlowNode item).id ≠ q.treeNode.id := by
            show item.treeNode.id ≠ q.treeNode.id
            intro heq
            exact head_id_not_mem_rest h1 (heq ▸ mem_queueIds_of_mem hmem)
          rw [yOf_cons_ne hne]
          have hf' : qSize rest ≤ f := by
            have ha := qSize_cons item rest
            have hb := sizeT_eq item.treeNode
            omega
          exact ih _ _ hf' (nodup_rest h1) q hmem

theorem h2_step {item : QueueItem} {rest : List QueueItem} {xx cy : Int}
    (h1 : (queueIds (item :: rest)).Nodup)
    (h2 : ∀ q ∈ item :: rest, ∀ p, q.parentId = some p →
      p ∉ queueIds (item :: rest)) :
    ∀ q ∈ rest ++ childQueueItems item.treeNode xx cy, ∀ p,
      q.parentId = some p →
      p ∉ queueIds (rest ++ childQueueItems item.treeNode xx cy) := by
  intro q hq p hp hmem
  rcases List.mem_append.mp hq with hqr | hqc
  · exact h2 q (by simp [hqr]) p hp (queueIds_step_sub hmem)
  · have hpt : p = item.treeNode.id := by
      have := (mem_childQueueItems hqc).1
      rw [this] at hp
      exact (Option.some.inj hp).symm
    subst hpt
    exact head_id_not_mem_step h1 hmem

theorem h3_step {item : QueueItem} {rest : List QueueItem} {xx cy : Int}
    (h2 : ∀ q ∈ item :: rest, ∀ p, q.parentId = some p →
      p ∉ queueIds (item :: rest))
    (h3 : ∀ q1 ∈ item :: rest, ∀ q2 ∈ item :: rest,
      q1.parentId = q2.parentId → q1.y = q2.y) :
    ∀ q1 ∈ rest ++ childQueueItems item.treeNode xx cy,
      ∀ q2 ∈ rest ++ childQueueItems item.treeNode xx cy,
      q1.parentId = q2.parentId → q1.y = q2.y := by
  intro q1 hq1 q2 hq2 hpp
  rcases List.mem_append.mp hq1 with hr1 | hc1 <;>
    rcases List.mem_append.mp hq2 with hr2 | hc2
  · exact h3 q1 (by simp [hr1]) q2 (by simp [hr2]) hpp
  · exfalso
    have hp2 := (mem_childQueueItems hc2).1
    have hp1 : q1.parentId = some item.treeNode.id := by rw [hpp, hp2]
    exact h2 q1 (by simp [hr1]) item.treeNode.id hp1 head_id_mem
  · exfalso
    have hp1 := (mem_childQueueItems hc1).1
    have hp2 : q2.parentId = some item.treeNode.id := by rw [← hpp, hp1]
    exact h2 q2 (by simp [hr2]) item.treeNode.id hp2 head_id_mem
  · rw [(mem_childQueueItems hc1).2, (mem_childQueueItems hc2).2]

theorem aux_common_y : ∀ (fuel : Nat) (queue : List QueueItem)
    (lvlY : List (Nat × Int)),
    qSize queue ≤ fuel → (queueIds queue).Nodup →
    (∀ q ∈ queue, ∀ p, q.parentId = some p → p ∉ queueIds queue) →
    (∀ q1 ∈ queue, ∀ q2 ∈ queue, q1.parentId = q2.parentId → q1.y = q2.y) →
    ∀ e1 ∈ (treeToFlowAux fuel queue lvlY).2,
    ∀ e2 ∈ (treeToFlowAux fuel queue lvlY).2,
      e1.source = e2.source →
      yOf (treeToFlowAux fuel queue lvlY).1 e1.target
        = yOf (treeToFlowAux fuel queue lvlY).1 e2.target := by
  intro fuel
  induction fuel with
  | zero =>
    intro queue lvlY _ _ _ _ e1 he1
    cases queue with
    | nil => simp [treeToFlowAux] at he1
    | cons item rest => simp [treeToFlowAux] at he1
  | succ f ih =>
    intro queue lvlY hf h1 h2 h3 e1 he1 e2 he2 hss
    cases queue with
    | nil => simp [treeToFlowAux] at he1
    | cons item rest =>
      simp only [treeToFlowAux] at he1 he2 ⊢
      by_cases hc : item.treeNode.children.length > 0
      · rw [if_pos hc] at he1 he2 ⊢
        dsimp only at he1 he2 ⊢
        have hf' : qSize (rest ++ childQueueItems item.treeNode item.x
            (nextChildY lvlY (pathLevel item.treeNode.path) item.y)) ≤ f := by
          rw [qSize_append, qSize_childQueueItems]
          have ha := qSize_cons item rest
          have hb := sizeT_eq item.treeNode
          omega
        have h1' : (queueIds (rest ++ childQueueItems item.treeNode item.x
            (nextChildY lvlY (pathLevel item.treeNode.path) item.y))).Nodup :=
          nodup_step h1
        rcases List.mem_append.mp he1 with hp1 | hr1 <;>
          rcases List.mem_append.mp he2 with hp2 | hr2
        · rw [(parentEdges_shape hp1).2, (parentEdges_shape hp2).2]
        · obtain ⟨hpid1, htar1⟩ := parentEdges_shape hp1
          have hsrc1 : e1.source ∉ queueIds (item :: rest) :=
            h2 item (by simp) e1.source hpid1
          have hsrc2 : e2.source ∉ queueIds (rest ++ childQueueItems item.treeNode
              item.x (nextChildY lvlY (pathLevel item.treeNode.path) item.y)) :=
            fun hmem => hsrc1 (hss ▸ queueIds_step_sub hmem)
          obtain ⟨qi, hqi, hqip, hqit⟩ := aux_edge_sib f _ _ e2 hr2 hsrc2
          rcases List.mem_append.mp hqi with hqir | hqic
          · have hy : qi.y = item.y := by
              refine h3 qi (by simp [hqir]) item (by simp) ?_
              rw [hqip, ← hss, hpid1]
            rw [htar1, hqit]
            rw [yOf_cons_self (show (mkFlowNode item).id = item.treeNode.id from rfl)]
            have hne : (mkFlowNode item).id ≠ qi.treeNode.id := by
              show item.treeNode.id ≠ qi.treeNode.id
              intro heq
              exact head_id_not_mem_rest h1 (heq ▸ mem_queueIds_of_mem hqir)
            rw [yOf_cons_ne hne]
            rw [aux_rootY f _ _ hf' h1' qi hqi, hy]
            rfl
          · exfalso
            have hp2 := (mem_childQueueItems hqic).1
            rw [hp2] at hqip
            have heq : item.treeNode.id = e2.source := Option.some.inj hqip
            exact hsrc1 (hss ▸ heq ▸ head_id_mem)
        · obtain ⟨hpid2, htar2⟩ := parentEdges_shape hp2
          have hsrc2 : e2.source ∉ queueIds (item :: rest) :=
            h2 item (by simp) e2.source hpid2
          have hsrc1 : e1.source ∉ queueIds (rest ++ childQueueItems item.treeNode
              item.x (nextChildY lvlY (pathLevel item.treeNode.path) item.y)) :=
            fun hmem => hsrc2 (hss ▸ queueIds_step_sub hmem)
          obtain ⟨qi, hqi, hqip, hqit⟩ := aux_edge_sib f _ _ e1 hr1 hsrc1
          rcases List.mem_append.mp hqi with hqir | hqic
          · have hy : qi.y = item.y := by
              refine h3 qi (by simp [hqir]) item (by simp) ?_
              rw [hqip, hss, hpid2]
            rw [htar2, hqit]
            rw [yOf_cons_self (show (mkFlowNode item).id = item.treeNode.id from rfl)]
            have hne : (mkFlowNode item).id ≠ qi.treeNode.id := by
              show item.treeNode.id ≠ qi.treeNode.id
              intro heq
              exact head_id_not_mem_rest h1 (heq ▸ mem_queueIds_of_mem hqir)
            rw [yOf_cons_ne hne]
            rw [aux_rootY f _ _ hf' h1' qi hqi, hy]
            rfl
          · exfalso
            have hpc := (mem_childQueueItems hqic).1
            rw [hpc] at hqip
            have heq : item.treeNode.id = e1.source := Option.some.inj hqip
            exact hsrc2 (hss ▸ heq ▸ head_id_mem)
        · have hne1 : (mkFlowNode item).id ≠ e1.target := by
            show item.treeNode.id ≠ e1.target
            intro heq
            exact head_id_not_mem_step h1 (heq ▸ aux_target_mem f _ _ e1 hr1)
          have hne2 : (mkFlowNode item).id ≠ e2.target := by
            show item.treeNode.id ≠ e2.target
            intro heq
            exact head_id_not_mem_step h1 (heq ▸ aux_target_mem f _ _ e2 hr2)
          rw [yOf_cons_ne hne1, yOf_cons_ne hne2]
          exact ih _ _ hf' h1' (h2_step h1 h2) (h3_step h2 h3) e1 hr1 e2 hr2 hss
      · rw [if_neg hc] at he1 he2 ⊢
        dsimp only at he1 he2 ⊢
        have hf' : qSize rest ≤ f := by
          have ha := qSize_cons item rest
          have hb := sizeT_eq item.treeNode
          omega
        have h1' := nodup_rest h1
        have hsub : ∀ x : String, x ∈ queueIds rest → x ∈ queueIds (item :: rest) := by
          intro x hx
          rw [queueIds_cons]
          simp [List.mem_append, hx]
        have h2' : ∀ q ∈ rest, ∀ p, q.parentId = some p → p ∉ queueIds rest := by
          intro q hq p hp hmem
          exact h2 q (by simp [hq]) p hp (hsub p hmem)
        have h3' : ∀ q1 ∈ rest, ∀ q2 ∈ rest, q1.parentId = q2.parentId →
            q1.y = q2.y := by
          intro q1 hq1 q2 hq2 hpp
          exact h3 q1 (by simp [hq1]) q2 (by simp [hq2]) hpp
        rcases List.mem_append.mp he1 with hp1 | hr1 <;>
          rcases List.mem_append.mp he2 with hp2 | hr2
        · rw [(parentEdges_shape hp1).2, (parentEdges_shape hp2).2]
        · obtain ⟨hpid1, htar1⟩ := parentEdges_shape hp1
          have hsrc1 : e1.source ∉ queueIds (item :: rest) :=
            h2 item (by simp) e1.source hpid1
          have hsrc2 : e2.source ∉ queueIds rest :=
            fun hmem => hsrc1 (hss ▸ hsub e2.source hmem)
          obtain ⟨qi, hqi, hqip, hqit⟩ := aux_edge_sib f _ _ e2 hr2 hsrc2
          have hy : qi.y = item.y := by
            refine h3 qi (by simp [hqi]) item (by simp) ?_
            rw [hqip, ← hss, hpid1]
          rw [htar1, hqit]
          rw [yOf_cons_self (show (mkFlowNode item).id = item.treeNode.id from rfl)]
          have hne : (mkFlowNode item).id ≠ qi.treeNode.id := by
            show item.treeNode.id ≠ qi.treeNode.id
            intro heq
            exact head_id_not_mem_rest h1 (heq ▸ mem_queueIds_of_mem hqi)
          rw [yOf_cons_ne hne]
          rw [aux_rootY f _ _ hf' h1' qi hqi, hy]
          rfl
        · obtain ⟨hpid2, htar2⟩ := parentEdges_shape hp2
          have hsrc2 : e2.source ∉ queueIds (item :: rest) :=
            h2 item (by simp) e2.source hpid2
          have hsrc1 : e1.source ∉ queueIds rest :=
            fun hmem => hsrc2 (hss ▸ hsub e1.source hmem)
          obtain ⟨qi, hqi, hqip, hqit⟩ := aux_edge_sib f _ _ e1 hr1 hsrc1
          have hy : qi.y = item.y := by
            refine h3 qi (by simp [hqi]) item (by simp) ?_
            rw [hqip, hss, hpid2]
          rw [htar2, hqit]
          rw [yOf_cons_self (show (mkFlowNode item).id = item.treeNode.id from rfl)]
          have hne : (mkFlowNode item).id ≠ qi.treeNode.id := by
            show item.treeNode.id ≠ qi.treeNode.id
            intro heq
            exact head_id_not_mem_rest h1 (heq ▸ mem_queueIds_of_mem hqi)
          rw [yOf_cons_ne hne]
          rw [aux_rootY f _ _ hf' h1' qi hqi, hy]
          rfl
        · have hne1 : (mkFlowNode item).id ≠ e1.target := by
            show item.treeNode.id ≠ e1.target
            intro heq
            exact head_id_not_mem_rest h1 (heq ▸ aux_target_mem f _ _ e1 hr1)
          have hne2 : (mkFlowNode item).id ≠ e2.target := by
            show item.treeNode.id ≠ e2.target
            intro heq
            exact head_id_not_mem_rest h1 (heq ▸ aux_target_mem f _ _ e2 hr2)
          rw [yOf_cons_ne hne1, yOf_cons_ne hne2]
          exact ih _ _ hf' h1' h2' h3' e1 hr1 e2 hr2 hss

/-! ### Claim C2, amended -/

/-- Claim C2, amended: in the layout flattener, all children of a
dequeued node are assigned one common y-coordinate — in the flattened
output of any tree whose positioned-node ids are pairwise distinct,
any two edges with the same source have targets with equal
y-coordinates.  (By `C2_counterexample`, that common y-coordinate is
*not* in general `max(stored level y, parent y + gap)`: the stored
per-level value is used as-is even when it lies above the parent, so
the children's y can be less than the parent's y plus the fixed
vertical gap.) -/
theorem C2_amended_children_common_y (ts : List TreeNode) (sx sy : Int)
    (hn : ((treeToFlow ts sx sy).1.map FlowNode.id).Nodup) :
    ∀ e1 ∈ (treeToFlow ts sx sy).2, ∀ e2 ∈ (treeToFlow ts sx sy).2,
      e1.source = e2.source →
      yOf (treeToFlow ts sx sy).1 e1.target
        = yOf (treeToFlow ts sx sy).1 e2.target := by
  cases ts with
  | nil =>
    intro e1 he1
    simp [treeToFlow] at he1
  | cons root rest0 =>
    rw [treeToFlow_cons] at hn ⊢
    have hq : qSize [{ treeNode := root, parentId := none, x := sx, y := sy }]
        ≤ sizeT root := by
      rw [qSize_cons]
      simp [qSize]
    have hperm := aux_ids_perm (sizeT root)
      [{ treeNode := root, parentId := none, x := sx, y := sy }] [(0, sy)] hq
    have h1 : (queueIds [{ treeNode := root, parentId := none, x := sx, y := sy }]
        : List String).Nodup := hperm.nodup_iff.mp hn
    refine aux_common_y (sizeT root) _ _ hq h1 ?_ ?_
    · intro q hqmem p hp
      rcases List.mem_singleton.mp hqmem with rfl
      cases hp
    · intro q1 hq1 q2 hq2 _
      rcases List.mem_singleton.mp hq1 with rfl
      rcases List.mem_singleton.mp hq2 with rfl
      rfl

/-- Witness for the amended C2: in the flattened
`\x7b"a":1,"b":[2,3]\x7d` diagram the two children of `$.b` (targets
of the two edges out of `$.b`) have the same y-coordinate. -/
theorem C2_amended_witness :
    yOf (treeToFlow (jsonToTree jAB "$") 400 50).1 "$.b[0]"
      = yOf (treeToFlow (jsonToTree jAB "$") 400 50).1 "$.b[1]" :=
  C2_amended_children_common_y (jsonToTree jAB "$") 400 50 (by decide)
    { id := "$.b-$.b[0]", source := "$.b", target := "$.b[0]" } (by decide)
    { id := "$.b-$.b[1]", source := "$.b", target := "$.b[1]" } (by decide) rfl
